import Mathlib

/- Verification of the THEX streaming Merkle-tree engine (package thex,
file thex.go). The engine is built from a leaf framer (the overflow buffer
logic in Write) and a chain of processLevel goroutines connected by
unbuffered channels. Every channel is a synchronous rendezvous, so the whole
pipeline is deterministic: its observable behaviour is a pure function of the
sequence of values delivered into level 0. The embedding below models each
goroutine by the program point where it is blocked, and models delivering a
value as a cascade through the chain that completes before the sender
resumes. -/

namespace Thex

/-- A byte. Byte values are abstract; only equality on byte strings matters. -/
abbrev Byte := Nat

/-- A byte string, as passed to Write and carried on the channels. -/
abbrev Bytes := List Byte

/-- State of the shared underlying hash.Hash object: the bytes written to it
since its last Reset. The algorithm itself is abstracted as a function H from
the written bytes to the resulting digest. -/
structure DigestState where
  buf : Bytes
deriving DecidableEq

/-- digest.Reset() -/
def DigestState.dreset (_d : DigestState) : DigestState := ⟨[]⟩

/-- digest.Write(p) -/
def DigestState.dwrite (d : DigestState) (p : Bytes) : DigestState := ⟨d.buf ++ p⟩

/-- digest.Sum(nil) for an underlying algorithm H -/
def DigestState.dsum (H : Bytes → Bytes) (d : DigestState) : Bytes := H d.buf

/-- The single domain-separation byte 1 prepended before hashing two children
together (thex.go line 40, named innerPrefix in the source). -/
def innerPfx : Bytes := [1]

/-- One combine step exactly as processLevel performs it (thex.go lines
124-130): reset the shared digest, write the domain-separation byte, write
left, write right, finalize. The starting digest state d is whatever the
previous combine left behind. -/
def digestRun (H : Bytes → Bytes) (d : DigestState) (l r : Bytes) : Bytes :=
  (((d.dreset.dwrite innerPfx).dwrite l).dwrite r).dsum H

/-- The functional combination rule stated by the design: parent =
H(domain byte, then left, then right). -/
def combine (H : Bytes → Bytes) (l r : Bytes) : Bytes :=
  H (innerPfx ++ l ++ r)

/-- The state of one processLevel goroutine between channel rendezvous:
first0 means blocked at the initial left read (thex.go line 116);
first1 l means first loop, holding left = l, blocked reading right (line 117);
loop0 means second loop, blocked at the left read (line 136);
loop1 l means second loop, holding left = l, blocked reading right (line 138). -/
inductive LState where
  | first0 : LState
  | first1 : Bytes → LState
  | loop0 : LState
  | loop1 : Bytes → LState
deriving DecidableEq

/-- Delivery of one real (non-nil) value into a chain of levels; the head is
the receiving level and the tail is the levels above it (empty when not yet
spawned). A level holding a left value combines it with the arriving right
value and forwards the parent upward, spawning the next level first when it
does not exist yet; a level with no pending left just stores the value.
Because every channel is unbuffered, the cascade completes before the sender
resumes. -/
def push (H : Bytes → Bytes) : List LState → Bytes → List LState
  | [], v => [.first1 v]
  | .first0 :: rest, v => .first1 v :: rest
  | .first1 l :: rest, v => .loop0 :: push H rest (digestRun H ⟨[]⟩ l v)
  | .loop0 :: rest, v => .loop1 v :: rest
  | .loop1 l :: rest, v => .loop0 :: push H rest (digestRun H ⟨[]⟩ l v)

/-- Delivery of a real value v immediately followed by the nil sentinel into a
chain of levels. This happens when the level below had an unpaired left value:
it sends left, then nil (thex.go lines 149-150). The result is the value that
eventually arrives on the final (sum) channel. A level at first0 stores v,
then reads nil and sends v directly to the final channel (line 119); a level
holding a left value combines and passes the parent-then-nil pair upward. -/
def drain2 (H : Bytes → Bytes) : List LState → Bytes → Option Bytes
  | [], v => some v
  | .first0 :: _, v => some v
  | .first1 l :: rest, v => drain2 H rest (digestRun H ⟨[]⟩ l v)
  | .loop0 :: rest, v => drain2 H rest v
  | .loop1 l :: rest, v => drain2 H rest (digestRun H ⟨[]⟩ l v)

/-- Delivery of the nil sentinel alone into a chain of levels: the value that
eventually arrives on the final (sum) channel, or none when no value is ever
delivered, in which case every goroutine stays blocked and Sum never returns.
A level at first0 reads nil as its first left and then blocks forever in the
range loop (thex.go lines 116-117); a level holding left in its first loop
sends left to the final channel (line 119); a level at loop0 forwards nil
(line 153); a level at loop1 sends its left then nil upward (lines 149-150). -/
def drain (H : Bytes → Bytes) : List LState → Option Bytes
  | [] => none
  | .first0 :: _ => none
  | .first1 l :: _ => some l
  | .loop0 :: rest => drain H rest
  | .loop1 l :: rest => drain2 H rest l

/-- The engine state between public calls: the overflow buffer and the chain
of level goroutines, level 0 first. The shared digest object needs no slot
because every combine step begins by resetting it (see digestRun). -/
structure TState where
  overflow : Bytes
  levels : List LState
deriving DecidableEq

/-- t.Reset() (thex.go lines 96-101): empty overflow buffer, fresh level-0
goroutine blocked at its first read; the previous pipeline is abandoned. -/
def resetT (_t : TState) : TState := ⟨[], [.first0]⟩

/-- New(digest) (thex.go lines 54-61): zeroed fields, then Reset. -/
def newT : TState := resetT ⟨[], []⟩

/-- The chunking loop of Write (thex.go lines 84-89): while a full sz-byte
chunk remains, send it to level 0; returns the final levels and the remaining
bytes. The Go loop would never terminate with size = 0, so the model guards on
0 < sz; every theorem below assumes a positive digest width. -/
def emitChunks (H : Bytes → Bytes) (sz : Nat) (levels : List LState) (p : Bytes) :
    List LState × Bytes :=
  if _h : 0 < sz ∧ sz ≤ p.length then
    emitChunks H sz (push H levels (p.take sz)) (p.drop sz)
  else
    (levels, p)
termination_by p.length
decreasing_by
  simp only [List.length_drop]
  omega

/-- t.Write(p) (thex.go lines 68-94). Returns the new engine state together
with the two Go return values, n = len(p) and err, which is never assigned
and stays nil. First the pending overflow is filled: with i = size minus the
overflow length, an input shorter than i is wholly appended to the overflow
and the call ends; otherwise overflow plus the first i bytes is emitted as a
leaf and the loop continues over the rest in exact sz strides, the final
partial remainder becoming the new overflow. -/
def writeGo (H : Bytes → Bytes) (sz : Nat) (t : TState) (p : Bytes) :
    TState × Nat × Option Unit :=
  let st :=
    if 0 < t.overflow.length then
      let i := sz - t.overflow.length
      if p.length < i then
        ⟨t.overflow ++ p, t.levels⟩
      else
        let pr := emitChunks H sz (push H t.levels (t.overflow ++ p.take i)) (p.drop i)
        ⟨pr.2, pr.1⟩
    else
      let pr := emitChunks H sz t.levels p
      ⟨pr.2, pr.1⟩
  (st, p.length, none)

/-- The state component of Write. -/
def writeT (H : Bytes → Bytes) (sz : Nat) (t : TState) (p : Bytes) : TState :=
  (writeGo H sz t p).1

/-- t.Sum(b) (thex.go lines 103-106): send nil into level 0 and wait on the
sum channel; the argument b is never referenced by the code. Result none
means no value is ever delivered and the call blocks forever. -/
def sumT (H : Bytes → Bytes) (t : TState) (_b : Bytes) : Option Bytes :=
  drain H t.levels

/- ------------------------------------------------------------------ -/
/- Helper lemmas.                                                      -/
/- ------------------------------------------------------------------ -/

theorem digestRun_eq (H : Bytes → Bytes) (d : DigestState) (l r : Bytes) :
    digestRun H d l r = combine H l r := by
  simp [digestRun, combine, DigestState.dreset, DigestState.dwrite, DigestState.dsum]

theorem emitChunks_stop (H : Bytes → Bytes) (sz : Nat) (lv : List LState) (p : Bytes)
    (h : p.length < sz) : emitChunks H sz lv p = (lv, p) := by
  rw [emitChunks]
  simp only [dite_eq_right_iff]
  intro hc
  omega

theorem emitChunks_step (H : Bytes → Bytes) (sz : Nat) (lv : List LState) (p : Bytes)
    (h1 : 0 < sz) (h2 : sz ≤ p.length) :
    emitChunks H sz lv p = emitChunks H sz (push H lv (p.take sz)) (p.drop sz) := by
  rw [emitChunks]
  simp [h1, h2]

theorem emitChunks_append (H : Bytes → Bytes) (sz : Nat) (hsz : 0 < sz) :
    ∀ (n : Nat) (p : Bytes), p.length ≤ n → ∀ (lv : List LState) (q : Bytes),
      emitChunks H sz lv (p ++ q)
        = emitChunks H sz (emitChunks H sz lv p).1 ((emitChunks H sz lv p).2 ++ q) := by
  intro n
  induction n with
  | zero =>
    intro p hp lv q
    have hnil : p = [] := List.eq_nil_of_length_eq_zero (Nat.le_zero.mp hp)
    subst hnil
    rw [emitChunks_stop H sz lv [] (by omega)]
  | succ n ih =>
    intro p hp lv q
    by_cases hc : sz ≤ p.length
    · have hlen : sz ≤ (p ++ q).length := by
        simp only [List.length_append]
        omega
      rw [emitChunks_step H sz lv (p ++ q) hsz hlen]
      have htake : (p ++ q).take sz = p.take sz := by
        rw [List.take_append_eq_append_take]
        have : sz - p.length = 0 := by omega
        simp [this]
      have hdrop : (p ++ q).drop sz = p.drop sz ++ q := by
        rw [List.drop_append_eq_append_drop]
        have : sz - p.length = 0 := by omega
        simp [this]
      rw [htake, hdrop]
      rw [ih (p.drop sz) (by simp only [List.length_drop]; omega)]
      rw [emitChunks_step H sz lv p hsz hc]
    · have hlt : p.length < sz := by omega
      rw [emitChunks_stop H sz lv p hlt]

theorem emitChunks_len (H : Bytes → Bytes) (sz : Nat) (hsz : 0 < sz) :
    ∀ (n : Nat) (p : Bytes), p.length ≤ n → ∀ (lv : List LState),
      (emitChunks H sz lv p).2.length = p.length % sz := by
  intro n
  induction n with
  | zero =>
    intro p hp lv
    have hnil : p = [] := List.eq_nil_of_length_eq_zero (Nat.le_zero.mp hp)
    subst hnil
    rw [emitChunks_stop H sz lv [] (by omega)]
    simp
  | succ n ih =>
    intro p hp lv
    by_cases hc : sz ≤ p.length
    · rw [emitChunks_step H sz lv p hsz hc]
      rw [ih (p.drop sz) (by simp only [List.length_drop]; omega)]
      simp only [List.length_drop]
      conv_rhs => rw [show p.length = (p.length - sz) + sz by omega, Nat.add_mod_right]
    · rw [emitChunks_stop H sz lv p (by omega)]
      show p.length = p.length % sz
      exact (Nat.mod_eq_of_lt (by omega)).symm

/-- Write over a state whose overflow invariant holds is exactly the chunking
loop run on overflow ++ p. -/
theorem writeT_emit (H : Bytes → Bytes) (sz : Nat) (t : TState) (p : Bytes)
    (hsz : 0 < sz) (hov : t.overflow.length < sz) :
    writeT H sz t p
      = ⟨(emitChunks H sz t.levels (t.overflow ++ p)).2,
         (emitChunks H sz t.levels (t.overflow ++ p)).1⟩ := by
  obtain ⟨ov, lv⟩ := t
  simp only [writeT, writeGo] at *
  by_cases hne : 0 < ov.length
  · simp only [hne, if_true]
    by_cases hsh : p.length < sz - ov.length
    · simp only [hsh, if_true]
      rw [emitChunks_stop H sz lv (ov ++ p) (by simp only [List.length_append]; omega)]
    · simp only [hsh, if_false]
      have hle : sz ≤ (ov ++ p).length := by
        simp only [List.length_append]
        omega
      rw [emitChunks_step H sz lv (ov ++ p) hsz hle]
      have htake : (ov ++ p).take sz = ov ++ p.take (sz - ov.length) := by
        rw [List.take_append_eq_append_take]
        congr 1
        exact List.take_of_length_le (by omega)
      have hdrop : (ov ++ p).drop sz = p.drop (sz - ov.length) := by
        rw [List.drop_append_eq_append_drop]
        have : ov.drop sz = [] := List.drop_eq_nil_of_le (by omega)
        simp [this]
      rw [htake, hdrop]
  · have hnil : ov = [] := by
      cases ov with
      | nil => rfl
      | cons a l => simp at hne
    subst hnil
    simp [hne]

/-- Two successive Writes act like a single Write of the concatenation. -/
theorem writeT_merge (H : Bytes → Bytes) (sz : Nat) (t : TState) (p q : Bytes)
    (hsz : 0 < sz) (hov : t.overflow.length < sz) :
    writeT H sz (writeT H sz t p) q = writeT H sz t (p ++ q) := by
  have h1 := writeT_emit H sz t p hsz hov
  have hrem : (emitChunks H sz t.levels (t.overflow ++ p)).2.length < sz := by
    rw [emitChunks_len H sz hsz (t.overflow ++ p).length (t.overflow ++ p) le_rfl t.levels]
    exact Nat.mod_lt _ hsz
  rw [h1]
  rw [writeT_emit H sz _ q hsz hrem]
  rw [writeT_emit H sz t (p ++ q) hsz hov]
  have happ := emitChunks_append H sz hsz (t.overflow ++ p).length (t.overflow ++ p)
    le_rfl t.levels q
  have hassoc : t.overflow ++ (p ++ q) = (t.overflow ++ p) ++ q := by
    rw [List.append_assoc]
  rw [hassoc, happ]

/-- Writing the empty string leaves the state unchanged. -/
theorem writeT_nil (H : Bytes → Bytes) (sz : Nat) (t : TState)
    (hsz : 0 < sz) (hov : t.overflow.length < sz) :
    writeT H sz t [] = t := by
  rw [writeT_emit H sz t [] hsz hov]
  rw [List.append_nil]
  rw [emitChunks_stop H sz t.levels t.overflow hov]

/-- The overflow length after a Write. -/
theorem writeT_overflow_len (H : Bytes → Bytes) (sz : Nat) (t : TState) (p : Bytes)
    (hsz : 0 < sz) (hov : t.overflow.length < sz) :
    (writeT H sz t p).overflow.length = (t.overflow.length + p.length) % sz := by
  rw [writeT_emit H sz t p hsz hov]
  have := emitChunks_len H sz hsz (t.overflow ++ p).length (t.overflow ++ p) le_rfl t.levels
  simpa [List.length_append] using this

/-- A sequence of Writes equals one Write of the concatenation. -/
theorem foldl_writeT (H : Bytes → Bytes) (sz : Nat) (hsz : 0 < sz) :
    ∀ (segs : List Bytes) (t : TState), t.overflow.length < sz →
      List.foldl (writeT H sz) t segs = writeT H sz t segs.flatten := by
  intro segs
  induction segs with
  | nil =>
    intro t hov
    simp only [List.foldl_nil, List.flatten_nil]
    exact (writeT_nil H sz t hsz hov).symm
  | cons s ss ih =>
    intro t hov
    have hov2 : (writeT H sz t s).overflow.length < sz := by
      rw [writeT_overflow_len H sz t s hsz hov]
      exact Nat.mod_lt _ hsz
    simp only [List.foldl_cons, List.flatten_cons]
    rw [ih (writeT H sz t s) hov2]
    exact writeT_merge H sz t s ss.flatten hsz hov

/-- Writing one complete leaf from a state with empty overflow pushes it into
level 0 and leaves the overflow empty. -/
theorem writeT_leaf (H : Bytes → Bytes) (sz : Nat) (t : TState) (p : Bytes)
    (hsz : 0 < sz) (hov : t.overflow = []) (hp : p.length = sz) :
    writeT H sz t p = ⟨[], push H t.levels p⟩ := by
  rw [writeT_emit H sz t p hsz (by rw [hov]; simpa using hsz)]
  rw [hov, List.nil_append]
  rw [emitChunks_step H sz t.levels p hsz (by omega)]
  have htake : p.take sz = p := List.take_of_length_le (by omega)
  have hdrop : p.drop sz = [] := List.drop_eq_nil_of_le (by omega)
  rw [htake, hdrop]
  rw [emitChunks_stop H sz _ [] (by simpa using hsz)]

/-- Sending a value and then nil is the same as sending the value and then
sending nil to the resulting chain. -/
theorem drain_push (H : Bytes → Bytes) :
    ∀ (rest : List LState) (l : Bytes), drain H (push H rest l) = drain2 H rest l := by
  intro rest
  induction rest with
  | nil => intro l; rfl
  | cons s r ih =>
    intro l
    cases s with
    | first0 => rfl
    | first1 l2 => simp only [push, drain, drain2]; exact ih _
    | loop0 => rfl
    | loop1 l2 => simp only [push, drain, drain2]; exact ih _

/-- Draining after a real value has been delivered always yields a root. -/
theorem drain2_isSome (H : Bytes → Bytes) :
    ∀ (rest : List LState) (l : Bytes), (drain2 H rest l).isSome := by
  intro rest
  induction rest with
  | nil => intro l; rfl
  | cons s r ih =>
    intro l
    cases s with
    | first0 => rfl
    | first1 l2 => exact ih _
    | loop0 => exact ih _
    | loop1 l2 => exact ih _

/-- A chain that has just received a real value always drains to a root. -/
theorem drain_push_isSome (H : Bytes → Bytes) :
    ∀ (lv : List LState) (v : Bytes), (drain H (push H lv v)).isSome := by
  intro lv v
  rw [drain_push]
  exact drain2_isSome H lv v

/-- After the chunking loop runs at least one step, the resulting chain is a
chain that has just received a value. -/
theorem emitChunks_form (H : Bytes → Bytes) (sz : Nat) (hsz : 0 < sz) :
    ∀ (n : Nat) (p : Bytes), p.length ≤ n → sz ≤ p.length → ∀ (lv : List LState),
      ∃ lv2 v, (emitChunks H sz lv p).1 = push H lv2 v := by
  intro n
  induction n with
  | zero =>
    intro p hp hle lv
    omega
  | succ n ih =>
    intro p hp hle lv
    rw [emitChunks_step H sz lv p hsz hle]
    by_cases hc : sz ≤ (p.drop sz).length
    · exact ih (p.drop sz) (by simp only [List.length_drop]; omega) hc _
    · rw [emitChunks_stop H sz _ (p.drop sz) (by omega)]
      exact ⟨lv, p.take sz, rfl⟩

/- ------------------------------------------------------------------ -/
/- Claim theorems.                                                     -/
/- ------------------------------------------------------------------ -/

/-- Claim C1: for every sequence of leaf bytes and every way of splitting it
into consecutive segments passed to successive Write calls (including splits
that fall inside a single leaf), the root returned by Sum equals the root
obtained by passing the entire sequence in a single Write call. -/
theorem c1_partial_write_equiv (H : Bytes → Bytes) (sz : Nat) (segs : List Bytes)
    (b : Bytes) (hsz : 0 < sz) :
    sumT H (List.foldl (writeT H sz) newT segs) b
      = sumT H (writeT H sz newT segs.flatten) b := by
  rw [foldl_writeT H sz hsz segs newT (by simpa [newT, resetT] using hsz)]

/-- Witness for C1 at a split that falls inside the byte span of one leaf. -/
theorem c1_witness :
    0 < 1 ∧ sumT (fun x => x) (List.foldl (writeT (fun x => x) 1) newT [[3], [4, 5]]) []
      = sumT (fun x => x) (writeT (fun x => x) 1 newT (List.flatten [[3], [4, 5]])) [] :=
  ⟨Nat.one_pos, c1_partial_write_equiv (fun x => x) 1 [[3], [4, 5]] [] Nat.one_pos⟩

/-- Claim C2: every parent value produced by a level equals the underlying
hash of the fixed byte 1, then the earlier-arriving child, then the
later-arriving child, computed by resetting the shared algorithm from any
prior digest state, writing the three segments in order and finalizing; both
combine sites of processLevel produce exactly this value. -/
theorem c2_parent_rule (H : Bytes → Bytes) (d : DigestState) (l r : Bytes)
    (rest : List LState) :
    digestRun H d l r = H (innerPfx ++ l ++ r)
    ∧ push H (LState.first1 l :: rest) r
        = LState.loop0 :: push H rest (digestRun H d l r)
    ∧ push H (LState.loop1 l :: rest) r
        = LState.loop0 :: push H rest (digestRun H d l r) := by
  refine ⟨?_, ?_, ?_⟩
  · rw [digestRun_eq]
    rfl
  · simp only [push, digestRun_eq]
  · simp only [push, digestRun_eq]

/-- Claim C3: writing exactly the three complete leaves a, b, c and calling
Sum yields Hash(1 and Hash(1 and a and b) and c): the unpaired c is promoted
unchanged and paired one level higher. -/
theorem c3_three_leaf_root (H : Bytes → Bytes) (sz : Nat) (a b c bb : Bytes)
    (hsz : 0 < sz) (ha : a.length = sz) (hb : b.length = sz) (hc : c.length = sz) :
    sumT H (writeT H sz (writeT H sz (writeT H sz newT a) b) c) bb
      = some (combine H (combine H a b) c) := by
  rw [writeT_leaf H sz newT a hsz rfl ha]
  rw [writeT_leaf H sz _ b hsz rfl hb]
  rw [writeT_leaf H sz _ c hsz rfl hc]
  simp [sumT, newT, resetT, push, drain, drain2, digestRun_eq]

/-- Witness for C3 with width 1 and leaves 3, 4, 5. -/
theorem c3_witness :
    0 < 1 ∧ sumT (fun x => x)
        (writeT (fun x => x) 1
          (writeT (fun x => x) 1 (writeT (fun x => x) 1 newT [3]) [4]) [5]) []
      = some (combine (fun x => x) (combine (fun x => x) [3] [4]) [5]) :=
  ⟨Nat.one_pos, c3_three_leaf_root (fun x => x) 1 [3] [4] [5] [] Nat.one_pos rfl rfl rfl⟩

/-- Claim C4: with exactly one complete leaf written, Sum returns that leaf
unchanged, with no prefixing or hashing applied by the engine. -/
theorem c4_single_leaf (H : Bytes → Bytes) (sz : Nat) (L b : Bytes)
    (hsz : 0 < sz) (hL : L.length = sz) :
    sumT H (writeT H sz newT L) b = some L := by
  rw [writeT_leaf H sz newT L hsz rfl hL]
  simp [sumT, newT, resetT, push, drain]

/-- Witness for C4 with width 1 and leaf 9. -/
theorem c4_witness :
    0 < 1 ∧ sumT (fun x => x) (writeT (fun x => x) 1 newT [9]) [] = some [9] :=
  ⟨Nat.one_pos, c4_single_leaf (fun x => x) 1 [9] [] Nat.one_pos rfl⟩

/-- Claim C5: a Write made while an overflow is pending, whose input is
shorter than the bytes needed to complete the overflow, appends the whole
input to the overflow and emits nothing to level 0. -/
theorem c5_short_input_overflow (H : Bytes → Bytes) (sz : Nat) (t : TState) (p : Bytes)
    (hov : 0 < t.overflow.length) (hshort : p.length < sz - t.overflow.length) :
    writeT H sz t p = ⟨t.overflow ++ p, t.levels⟩ := by
  simp [writeT, writeGo, hov, hshort]

/-- Witness for C5: one pending byte at width 3, one further byte arriving. -/
theorem c5_witness :
    writeT (fun x => x) 3 ⟨[9], [LState.first0]⟩ [8] = ⟨[9, 8], [LState.first0]⟩ :=
  c5_short_input_overflow (fun x => x) 3 ⟨[9], [LState.first0]⟩ [8] (by decide) (by decide)

/-- Claim C6 counterexample: with no prior Write at all, Sum delivers no value
and blocks forever, so the claim fails in the zero-leaf case it includes. -/
theorem c6_counterexample : sumT (fun x => x) newT [] = none := rfl

/-- Claim C6 (amended): Sum eventually returns a value exactly when at least
one complete leaf was written before it; with zero complete leaves, level 0
reads the sentinel as its first input and no value is ever delivered. -/
theorem c6_sum_returns_iff (H : Bytes → Bytes) (sz : Nat) (segs : List Bytes) (b : Bytes)
    (hsz : 0 < sz) :
    (sumT H (List.foldl (writeT H sz) newT segs) b).isSome
      ↔ sz ≤ segs.flatten.length := by
  have hov0 : newT.overflow.length < sz := by simpa [newT, resetT] using hsz
  rw [foldl_writeT H sz hsz segs newT hov0]
  rw [writeT_emit H sz newT segs.flatten hsz hov0]
  show (drain H (emitChunks H sz newT.levels (newT.overflow ++ segs.flatten)).1).isSome ↔ _
  have hnorm : newT.overflow ++ segs.flatten = segs.flatten := by simp [newT, resetT]
  rw [hnorm]
  by_cases hc : sz ≤ segs.flatten.length
  · simp only [hc, iff_true]
    obtain ⟨lv2, v, hform⟩ :=
      emitChunks_form H sz hsz segs.flatten.length segs.flatten le_rfl hc newT.levels
    rw [hform, drain_push]
    exact drain2_isSome H lv2 v
  · push_neg at hc
    rw [emitChunks_stop H sz newT.levels segs.flatten hc]
    constructor
    · intro habs
      exfalso
      revert habs
      simp [newT, resetT, drain]
    · intro hle
      omega

/-- Witness for the amended C6: one complete leaf makes Sum return. -/
theorem c6_witness :
    (sumT (fun x => x) (List.foldl (writeT (fun x => x) 1) newT [[7]]) []).isSome :=
  (c6_sum_returns_iff (fun x => x) 1 [[7]] [] Nat.one_pos).mpr (by decide)

/-- Claim C7: Write reports the full input length as consumed and a nil error
on every call. -/
theorem c7_write_full_consumption (H : Bytes → Bytes) (sz : Nat) (t : TState) (p : Bytes) :
    (writeGo H sz t p).2 = (p.length, (none : Option Unit)) := rfl

/-- Claim C8: after Reset the engine is in the one fixed fresh state, so two
runs of the same Write sequence followed by Sum, each started by a Reset from
any prior states, produce the identical root. -/
theorem c8_reset_deterministic (H : Bytes → Bytes) (sz : Nat) (t1 t2 : TState)
    (segs : List Bytes) (b : Bytes) :
    sumT H (List.foldl (writeT H sz) (resetT t1) segs) b
      = sumT H (List.foldl (writeT H sz) (resetT t2) segs) b := rfl

/-- Claim C9: after a Write the overflow buffer holds exactly (old length plus
input length) mod width bytes, in particular between 0 and width minus 1, and
it is empty exactly when the arriving bytes completed a leaf boundary; Reset
empties it. -/
theorem c9_overflow_invariant (H : Bytes → Bytes) (sz : Nat) (t : TState) (p : Bytes)
    (hsz : 0 < sz) (hov : t.overflow.length < sz) :
    (writeT H sz t p).overflow.length = (t.overflow.length + p.length) % sz
    ∧ (writeT H sz t p).overflow.length < sz
    ∧ (resetT t).overflow = [] := by
  refine ⟨writeT_overflow_len H sz t p hsz hov, ?_, rfl⟩
  rw [writeT_overflow_len H sz t p hsz hov]
  exact Nat.mod_lt _ hsz

/-- Witness for C9 at width 2 with three arriving bytes. -/
theorem c9_witness :
    (writeT (fun x => x) 2 newT [1, 2, 3]).overflow.length
        = (newT.overflow.length + [1, 2, 3].length) % 2
    ∧ (writeT (fun x => x) 2 newT [1, 2, 3]).overflow.length < 2
    ∧ (resetT newT).overflow = [] :=
  c9_overflow_invariant (fun x => x) 2 newT [1, 2, 3] (by decide) (by decide)

/-- Claim C10: Sum never reads its byte-slice argument: the result is the
root alone for every argument, never the argument with the root appended,
deviating from the standard hash.Hash convention. -/
theorem c10_sum_ignores_argument (H : Bytes → Bytes) (t : TState) (b b2 : Bytes) :
    sumT H t b = drain H t.levels
    ∧ sumT H t b = sumT H t b2
    ∧ (b ≠ [] → ∀ r, drain H t.levels = some r → sumT H t b ≠ some (b ++ r)) := by
  refine ⟨rfl, rfl, ?_⟩
  intro hb r hr heq
  rw [sumT, hr] at heq
  have hinj : r = b ++ r := Option.some.inj heq
  have hlen := congrArg List.length hinj
  rw [List.length_append] at hlen
  have hzero : b.length = 0 := by omega
  exact hb (List.eq_nil_of_length_eq_zero hzero)

/-- Witness for C10: a one-leaf state and a nonempty argument. -/
theorem c10_witness :
    sumT (fun x => x) ⟨[], [LState.first1 [5]]⟩ [0] ≠ some ([0] ++ [5]) :=
  (c10_sum_ignores_argument (fun x => x) ⟨[], [LState.first1 [5]]⟩ [0] []).2.2
    (by decide) [5] rfl

end Thex
